import Mathlib

/-!
Verification development for the `video-call` repository.

The signaling core consists of:
* `server.js` — a Socket.IO relay holding `rooms : Map<roomId, Map<userId, Member>>`,
  with handlers for `join-room`, `signal`, `leave-room` and `disconnect`;
* `src/hooks/useWebRTC.ts` — the client-side consumer creating one `SimplePeer`
  per remote user and feeding incoming `signal` events to it;
* `src/WebRTCTestPage.tsx` — the perfect-negotiation (polite/impolite) test client.

JavaScript `Map`s are embedded as association lists preserving insertion order:
`Map.set` replaces in place on an existing key and appends on a fresh key,
`Map.get` returns the entry for a key, `Map.delete` removes it, and iteration
(`forEach`, `values()`) follows insertion order.  Socket.IO emissions are
embedded as an output list: `socket.emit` / `io.to(sid).emit` become a
`direct` message addressed to a socket id, and `socket.to(roomId).emit`
becomes a `toRoom` message addressed to a room with the sender excluded.
-/

/-- Embedding of JavaScript `Map.get`: first entry with the given key. -/
def mapGet {α : Type} : List (String × α) → String → Option α
  | [], _ => none
  | (k, v) :: rest, key => if k = key then some v else mapGet rest key

/-- Embedding of JavaScript `Map.set`: replace the entry in place when the key
is present, append a new entry otherwise (insertion-order semantics). -/
def mapSet {α : Type} : List (String × α) → String → α → List (String × α)
  | [], key, v => [(key, v)]
  | (k, w) :: rest, key, v =>
    if k = key then (key, v) :: rest else (k, w) :: mapSet rest key v

/-- Embedding of JavaScript `Map.delete`: remove the first entry with the key. -/
def mapDel {α : Type} : List (String × α) → String → List (String × α)
  | [], _ => []
  | (k, w) :: rest, key => if k = key then rest else (k, w) :: mapDel rest key

/-- Keys of an association list, in insertion order. -/
def mapKeys {α : Type} (m : List (String × α)) : List String :=
  m.map Prod.fst

theorem mapGet_set_self {α : Type} (m : List (String × α)) (k : String) (v : α) :
    mapGet (mapSet m k v) k = some v := by
  induction m with
  | nil => simp [mapSet, mapGet]
  | cons p rest ih =>
    obtain ⟨k', v'⟩ := p
    by_cases h : k' = k <;> simp [mapSet, mapGet, h, ih]

theorem mapGet_set_ne {α : Type} (m : List (String × α)) (k k' : String) (v : α)
    (h : k ≠ k') : mapGet (mapSet m k v) k' = mapGet m k' := by
  induction m with
  | nil => simp [mapSet, mapGet, h]
  | cons p rest ih =>
    obtain ⟨k₀, v₀⟩ := p
    by_cases h₀ : k₀ = k
    · subst h₀; simp [mapSet, mapGet, h]
    · simp [mapSet, mapGet, h₀, ih]

theorem mapGet_del_ne {α : Type} (m : List (String × α)) (k k' : String)
    (h : k ≠ k') : mapGet (mapDel m k) k' = mapGet m k' := by
  induction m with
  | nil => simp [mapDel]
  | cons p rest ih =>
    obtain ⟨k₀, v₀⟩ := p
    by_cases h₀ : k₀ = k
    · subst h₀
      simp [mapDel, mapGet, h]
    · simp [mapDel, mapGet, h₀, ih]

theorem mapSet_self {α : Type} (m : List (String × α)) (k : String) (v : α)
    (h : mapGet m k = some v) : mapSet m k v = m := by
  induction m with
  | nil => simp [mapGet] at h
  | cons p rest ih =>
    obtain ⟨k₀, v₀⟩ := p
    by_cases h₀ : k₀ = k
    · subst h₀
      simp [mapGet] at h
      simp [mapSet, h]
    · simp [mapGet, h₀] at h
      simp [mapSet, h₀, ih h]

theorem mapSet_set {α : Type} (m : List (String × α)) (k : String) (v w : α) :
    mapSet (mapSet m k v) k w = mapSet m k w := by
  induction m with
  | nil => simp [mapSet]
  | cons p rest ih =>
    obtain ⟨k₀, v₀⟩ := p
    by_cases h₀ : k₀ = k
    · subst h₀; simp [mapSet]
    · simp [mapSet, h₀, ih]

theorem mapDel_set {α : Type} (m : List (String × α)) (k : String) (v : α) :
    mapDel (mapSet m k v) k = mapDel m k := by
  induction m with
  | nil => simp [mapSet, mapDel]
  | cons p rest ih =>
    obtain ⟨k₀, v₀⟩ := p
    by_cases h₀ : k₀ = k
    · subst h₀; simp [mapSet, mapDel]
    · simp [mapSet, mapDel, h₀, ih]

theorem mapKeys_set {α : Type} (m : List (String × α)) (k : String) (v : α) :
    mapKeys (mapSet m k v) = if k ∈ mapKeys m then mapKeys m else mapKeys m ++ [k] := by
  induction m with
  | nil => simp [mapSet, mapKeys]
  | cons p rest ih =>
    obtain ⟨k₀, v₀⟩ := p
    by_cases h₀ : k₀ = k
    · subst h₀; simp [mapSet, mapKeys]
    · have hne : ¬ k = k₀ := fun h => h₀ h.symm
      have hcons : mapKeys ((k₀, v₀) :: rest) = k₀ :: mapKeys rest := rfl
      have hsetcons : mapKeys (mapSet ((k₀, v₀) :: rest) k v) = k₀ :: mapKeys (mapSet rest k v) := by
        simp only [mapSet, if_neg h₀]; rfl
      by_cases hmem : k ∈ mapKeys rest
      · rw [if_pos (by rw [hcons]; exact List.mem_cons_of_mem _ hmem)]
        rw [hsetcons, ih, if_pos hmem, hcons]
      · rw [if_neg (by rw [hcons]; simp only [List.mem_cons, not_or]; exact ⟨hne, hmem⟩)]
        rw [hsetcons, ih, if_neg hmem, hcons]
        rfl

theorem mapKeys_nodup_set {α : Type} (m : List (String × α)) (k : String) (v : α)
    (h : (mapKeys m).Nodup) : (mapKeys (mapSet m k v)).Nodup := by
  rw [mapKeys_set]
  by_cases hmem : k ∈ mapKeys m
  · simpa [hmem] using h
  · simp only [hmem, if_false]
    rw [List.nodup_append]
    exact ⟨h, List.nodup_singleton k, by simpa using hmem⟩

theorem mapGet_eq_none_of_not_mem {α : Type} (m : List (String × α)) (k : String)
    (h : k ∉ mapKeys m) : mapGet m k = none := by
  induction m with
  | nil => simp [mapGet]
  | cons p rest ih =>
    obtain ⟨k₀, v₀⟩ := p
    simp only [mapKeys, List.map_cons, List.mem_cons, not_or] at h
    have h₀ : ¬ k₀ = k := fun hh => h.1 hh.symm
    simp only [mapGet, if_neg h₀]
    exact ih h.2

theorem mapGet_isSome_of_mem {α : Type} (m : List (String × α)) (k : String)
    (h : k ∈ mapKeys m) : (mapGet m k).isSome := by
  induction m with
  | nil => simp [mapKeys] at h
  | cons p rest ih =>
    obtain ⟨k₀, v₀⟩ := p
    by_cases h₀ : k₀ = k
    · simp [mapGet, h₀]
    · simp only [mapKeys, List.map_cons, List.mem_cons] at h
      rcases h with h | h
      · exact absurd h.symm h₀
      · simp only [mapGet, if_neg h₀]
        exact ih h

theorem mapSet_ne_nil {α : Type} (m : List (String × α)) (k : String) (v : α) :
    mapSet m k v ≠ [] := by
  cases m with
  | nil => simp [mapSet]
  | cons p rest =>
    obtain ⟨k₀, v₀⟩ := p
    by_cases h₀ : k₀ = k <;> simp [mapSet, h₀]

/-- A room member, as stored by `server.js`:
`room.set(userId, { socketId: socket.id, userId, userName })`. -/
structure Member where
  socketId : String
  userId : String
  userName : String
deriving DecidableEq, Repr

/-- Kind of a WebRTC signaling payload. -/
inductive SigKind
  | offer
  | answer
  | ice
deriving DecidableEq, Repr

/-- An opaque signaling payload: the relay forwards it unmodified. -/
structure Sig where
  kind : SigKind
  body : String
deriving DecidableEq, Repr

/-- Events emitted by the relay to clients (`server.js` emissions). -/
inductive Event
  | roomJoined (isFirst : Bool)
  | existingUsers (users : List (String × String))
  | userJoined (userId userName : String)
  | userLeft (userId : String)
  | signal (fromUserId : String) (payload : Sig)
deriving DecidableEq, Repr

/-- An addressed emission.  `direct sid ev` embeds `socket.emit` on the socket
`sid` (or `io.to(sid).emit`); `toRoom r sid ev` embeds `socket.to(r).emit`,
a broadcast addressed to room `r` excluding the sending socket `sid`. -/
inductive SMsg
  | direct (sid : String) (ev : Event)
  | toRoom (roomId : String) (exceptSid : String) (ev : Event)
deriving DecidableEq, Repr

/-- A room's member map: `Map<userId, Member>` in insertion order. -/
abbrev RoomMap := List (String × Member)

/-- The server's registry: `const rooms = new Map()` in `server.js`. -/
structure ServerState where
  rooms : List (String × RoomMap)
deriving DecidableEq, Repr

/-- Embedding of the `join-room` handler (`server.js` lines 22-66):
create the room if absent, read the existing users, insert the member
(replacing any member under the same `userId`), then either tell the joiner
it is first, or broadcast `user-joined` to the room and send the joiner the
`existing-users` list.  `socket.join(roomId)` touches only the Socket.IO
adapter and has no registry-visible effect. -/
def joinRoom (st : ServerState) (sid roomId userId userName : String) :
    ServerState × List SMsg :=
  let rooms₀ := if (mapGet st.rooms roomId).isSome then st.rooms
                else mapSet st.rooms roomId []
  let room := (mapGet rooms₀ roomId).getD []
  let existingUsers := room.map Prod.snd
  let room' := mapSet room userId ⟨sid, userId, userName⟩
  let rooms' := mapSet rooms₀ roomId room'
  let msgs :=
    if existingUsers = [] then
      [SMsg.direct sid (Event.roomJoined true)]
    else
      [SMsg.toRoom roomId sid (Event.userJoined userId userName),
       SMsg.direct sid (Event.existingUsers
         (existingUsers.map fun m => (m.userId, m.userName)))]
  (⟨rooms'⟩, msgs)

/-- Embedding of the `leave-room` handler (`server.js` lines 106-117):
if the room exists, delete the member (a no-op on an absent `userId`),
broadcast `user-left` to the room, and delete the room when it is empty.
If the room does not exist, nothing happens. -/
def leaveRoom (st : ServerState) (sid roomId userId : String) :
    ServerState × List SMsg :=
  match mapGet st.rooms roomId with
  | none => (st, [])
  | some room =>
    let room' := mapDel room userId
    let rooms' := if room' = [] then mapDel st.rooms roomId
                  else mapSet st.rooms roomId room'
    (⟨rooms'⟩, [SMsg.toRoom roomId sid (Event.userLeft userId)])

/-- Target lookup in the `signal` handler (`server.js` lines 71-78):
`rooms.forEach` scans every room; a later match overwrites an earlier one. -/
def findTargetSocket (rooms : List (String × RoomMap)) (targetUserId : String) :
    Option String :=
  rooms.foldl
    (fun acc p =>
      match mapGet p.2 targetUserId with
      | some m => some m.socketId
      | none => acc)
    none

/-- Sender lookup in the `signal` handler (`server.js` lines 82-89):
scan every member of every room for the sending socket id; a later match
overwrites an earlier one. -/
def findFromUser (rooms : List (String × RoomMap)) (sid : String) :
    Option String :=
  rooms.foldl
    (fun acc p =>
      p.2.foldl
        (fun acc' q => if q.2.socketId = sid then some q.2.userId else acc')
        acc)
    none

/-- Embedding of the `signal` handler (`server.js` lines 69-103): resolve the
target globally across rooms; when a target socket and a sender `userId` are
both found, forward exactly one `signal` event with the payload unmodified to
the target's socket; in every other case drop the envelope with no state
change. -/
def relaySignal (st : ServerState) (sid targetUserId : String) (payload : Sig) :
    ServerState × List SMsg :=
  match findTargetSocket st.rooms targetUserId with
  | none => (st, [])
  | some targetSocketId =>
    match findFromUser st.rooms sid with
    | none => (st, [])
    | some fromUserId =>
      (st, [SMsg.direct targetSocketId (Event.signal fromUserId payload)])

/-- Embedding of the `disconnect` handler (`server.js` lines 143-156):
for every room, in order, delete each member whose `socketId` is the dropped
socket, broadcasting `user-left` for each; a room emptied by these deletions
is removed (a room that was already empty is kept, since the deletion only
runs inside the member branch). -/
def disconnectSocket (st : ServerState) (sid : String) : ServerState × List SMsg :=
  (⟨st.rooms.filterMap fun p =>
      if p.2.filter (fun q => q.2.socketId ≠ sid) = [] ∧ p.2 ≠ [] then none
      else some (p.1, p.2.filter fun q => q.2.socketId ≠ sid)⟩,
   st.rooms.flatMap fun p =>
      (p.2.filter fun q => q.2.socketId = sid).map
        fun q => SMsg.toRoom p.1 sid (Event.userLeft q.1))

/-- Client-side view of one `SimplePeer` instance in `useWebRTC.ts`:
the `initiator` flag it was constructed with, and the signals delivered to it
through `peer.signal(...)`, in delivery order. -/
structure Peer where
  initiator : Bool
  delivered : List Sig
deriving DecidableEq, Repr

/-- Client state of the `useWebRTC` hook: `peersRef.current : Map<userId, SimplePeer>`
plus whether `streamRef.current` holds a local media stream.  The hook keeps
no other signal-related state: in particular it has no buffer for signals
arriving before their peer exists. -/
structure ClientState where
  peers : List (String × Peer)
  hasStream : Bool
deriving DecidableEq, Repr

/-- Messages a client emits to the relay (`socket.emit('signal', ...)`). -/
inductive CMsg
  | emitSignal (targetUserId : String) (sig : Sig)
deriving DecidableEq, Repr

/-- The initial offer a `SimplePeer` created with `initiator: true` generates.
`simple-peer` is an external library: its documented contract (assumed by both
the code and spec section 6) is that an initiator immediately produces an
offer through the `signal` event, while a non-initiator emits nothing until a
remote signal is applied. -/
def initialOffer : Sig := ⟨SigKind.offer, "initial-offer-sdp"⟩

/-- Embedding of `handleUserJoined` (`useWebRTC.ts` lines 69-122): if no local
stream exists the handler returns without creating a peer; otherwise it
creates a `SimplePeer` with `initiator: true` (which immediately emits its
offer, wired to `socket.emit('signal', { targetUserId, signal })`) and stores
it in `peersRef` under the new user's id, replacing any existing entry. -/
def handleUserJoined (st : ClientState) (newUserId : String) :
    ClientState × List CMsg :=
  if st.hasStream then
    ({ st with peers := mapSet st.peers newUserId ⟨true, []⟩ },
     [CMsg.emitSignal newUserId initialOffer])
  else (st, [])

/-- Embedding of `handleExistingUsers` (`useWebRTC.ts` lines 125-175): if no
local stream exists nothing happens; otherwise one `SimplePeer` with
`initiator: false` is created and stored per listed user, in list order.
A non-initiator emits no signal at creation. -/
def handleExistingUsers (st : ClientState) (users : List (String × String)) :
    ClientState × List CMsg :=
  if st.hasStream then
    (users.foldl
      (fun s p => { s with peers := mapSet s.peers p.1 ⟨false, []⟩ }) st,
     [])
  else (st, [])

/-- Embedding of `handleSignal` (`useWebRTC.ts` lines 178-190): look the
sender up in `peersRef`; when a peer exists, deliver the signal to it via
`peer.signal(signal)`; when none exists, log an error and do nothing — the
signal is dropped and no state changes. -/
def handleSignal (st : ClientState) (fromUserId : String) (sig : Sig) :
    ClientState :=
  match mapGet st.peers fromUserId with
  | some p =>
    { st with peers := mapSet st.peers fromUserId ⟨p.initiator, p.delivered ++ [sig]⟩ }
  | none => st

/-- Embedding of `handleUserLeft` (`useWebRTC.ts` lines 193-205): when a peer
for the departed user exists it is destroyed and removed from `peersRef`. -/
def handleUserLeft (st : ClientState) (leftUserId : String) : ClientState :=
  match mapGet st.peers leftUserId with
  | some _ => { st with peers := mapDel st.peers leftUserId }
  | none => st

/-- RTCPeerConnection signaling states used by `WebRTCTestPage.tsx`. -/
inductive SigState
  | stable
  | haveLocalOffer
  | haveRemoteOffer
deriving DecidableEq, Repr

/-- A session description: an offer or an answer with an SDP body. -/
structure Desc where
  isOffer : Bool
  sdp : String
deriving DecidableEq, Repr

/-- Negotiation state of the test page's single peer connection:
`pc.signalingState`, `makingOfferRef`, `ignoreOfferRef`, and the local and
remote descriptions. -/
structure PC where
  signalingState : SigState
  makingOffer : Bool
  ignoreOffer : Bool
  localDesc : Option Desc
  remoteDesc : Option Desc
deriving DecidableEq, Repr

/-- Messages the negotiation test client sends through the signaling
service. -/
inductive NegMsg
  | sendOffer (d : Desc)
  | sendAnswer (d : Desc)
deriving DecidableEq, Repr

/-- Embedding of `initiateConnection` (`WebRTCTestPage.tsx` lines 444-493):
skip when an offer is already in flight; otherwise set `makingOffer`, create
an offer with the given SDP, set it as local description (signaling state
`have-local-offer`) and send it.  `makingOffer` stays true until an answer
arrives or an incoming offer is handled. -/
def initiateConnection (pc : PC) (sdp : String) : PC × List NegMsg :=
  if pc.makingOffer then (pc, [])
  else
    ({ pc with
        makingOffer := true,
        localDesc := some ⟨true, sdp⟩,
        signalingState := SigState.haveLocalOffer },
     [NegMsg.sendOffer ⟨true, sdp⟩])

/-- Embedding of `handleOffer` (`WebRTCTestPage.tsx` lines 312-367), the
perfect-negotiation glare rule.  `offerCollision` holds when the incoming
description is an offer and either a local offer is being made or the
signaling state is not stable.  The impolite side ignores a colliding offer
(early return: no remote description set, no answer sent).  The polite side
rolls its in-flight local offer back, sets the incoming offer as remote
description, then creates and sends an answer.  The `finally` block clears
`makingOffer` on every path.  `answerSdp` stands for the SDP the browser
generates for the answer. -/
def handleOffer (pc : PC) (isPolite : Bool) (desc : Desc) (answerSdp : String) :
    PC × List NegMsg :=
  let offerCollision :=
    desc.isOffer ∧ (pc.makingOffer ∨ pc.signalingState ≠ SigState.stable)
  if ¬ isPolite ∧ offerCollision then
    ({ pc with ignoreOffer := true, makingOffer := false }, [])
  else
    let pc₁ :=
      if offerCollision then
        { pc with
            ignoreOffer := false,
            localDesc := none,
            remoteDesc := some desc,
            signalingState :=
              if desc.isOffer then SigState.haveRemoteOffer else SigState.stable }
      else
        { pc with
            ignoreOffer := false,
            remoteDesc := some desc,
            signalingState :=
              if desc.isOffer then SigState.haveRemoteOffer else SigState.stable }
    if desc.isOffer then
      ({ pc₁ with
          localDesc := some ⟨false, answerSdp⟩,
          signalingState := SigState.stable,
          makingOffer := false },
       [NegMsg.sendAnswer ⟨false, answerSdp⟩])
    else ({ pc₁ with makingOffer := false }, [])

/-- Embedding of `handleAnswer` (`WebRTCTestPage.tsx` lines 370-386): set the
remote description and clear `makingOffer`. -/
def handleAnswer (pc : PC) (desc : Desc) : PC :=
  { pc with
      remoteDesc := some desc,
      signalingState := SigState.stable,
      makingOffer := false }

/-- A registry operation received by the server. -/
inductive Op
  | join (sid roomId userId userName : String)
  | leave (sid roomId userId : String)
  | disc (sid : String)
deriving DecidableEq, Repr

/-- State transition of the registry for one operation (emissions dropped). -/
def stepOp (st : ServerState) : Op → ServerState
  | Op.join sid roomId userId userName => (joinRoom st sid roomId userId userName).1
  | Op.leave sid roomId userId => (leaveRoom st sid roomId userId).1
  | Op.disc sid => (disconnectSocket st sid).1

/-- Registry state after a sequence of operations, from the empty registry. -/
def runTrace (t : List Op) : ServerState :=
  t.foldl stepOp ⟨[]⟩

/-- The room map of a room in a state (empty when the room does not exist). -/
def roomOf (st : ServerState) (roomId : String) : RoomMap :=
  (mapGet st.rooms roomId).getD []

/-- One step of the specification-side membership automaton for a fixed room
and user: a join records the joining socket, a leave for that room and user
forgets it, so does a disconnect of the recorded socket. -/
def aliveStep (roomId userId : String) (cur : Option String) : Op → Option String
  | Op.join sid r u _ => if r = roomId ∧ u = userId then some sid else cur
  | Op.leave _ r u => if r = roomId ∧ u = userId then none else cur
  | Op.disc sid => if cur = some sid then none else cur

/-- Specification-side membership: the socket of the user's latest join to the
room, unless a later leave of that room or disconnect of that socket removed
it.  Computed from the operation sequence alone, never from the registry. -/
def alive (t : List Op) (roomId userId : String) : Option String :=
  t.foldl (aliveStep roomId userId) none

/-- Well-formedness of a registry state: room ids are distinct, and inside
every room the user ids are distinct. -/
def WF (st : ServerState) : Prop :=
  (mapKeys st.rooms).Nodup ∧ ∀ p ∈ st.rooms, (mapKeys p.2).Nodup

instance : DecidablePred WF := fun st => by
  unfold WF; infer_instance

theorem mapGet_mem {α : Type} (m : List (String × α)) (k : String) (v : α)
    (h : mapGet m k = some v) : (k, v) ∈ m := by
  induction m with
  | nil => simp [mapGet] at h
  | cons p rest ih =>
    obtain ⟨k₀, v₀⟩ := p
    by_cases h₀ : k₀ = k
    · subst h₀
      simp [mapGet] at h
      simp [h]
    · simp only [mapGet, if_neg h₀] at h
      exact List.mem_cons_of_mem _ (ih h)

theorem mem_mapSet_nodup {α : Type} (m : List (String × α)) (k : String) (v : α)
    (p : String × α) (hnd : (mapKeys m).Nodup) (h : p ∈ mapSet m k v) :
    p = (k, v) ∨ (p ∈ m ∧ p.1 ≠ k) := by
  induction m with
  | nil =>
    simp [mapSet] at h
    exact Or.inl h
  | cons q rest ih =>
    obtain ⟨k₀, v₀⟩ := q
    simp only [mapKeys, List.map_cons, List.nodup_cons] at hnd
    by_cases h₀ : k₀ = k
    · subst h₀
      simp [mapSet] at h
      rcases h with h1 | h1
      · exact Or.inl (by simp [h1])
      · refine Or.inr ⟨List.mem_cons_of_mem _ h1, ?_⟩
        intro hk
        exact hnd.1 (hk ▸ List.mem_map_of_mem Prod.fst h1)
    · simp only [mapSet, if_neg h₀, List.mem_cons] at h
      rcases h with h1 | h1
      · subst h1
        refine Or.inr ⟨List.mem_cons_self _ _, fun hk => h₀ hk⟩
      · rcases ih hnd.2 h1 with h' | h'
        · exact Or.inl h'
        · exact Or.inr ⟨List.mem_cons_of_mem _ h'.1, h'.2⟩

theorem mem_of_mem_mapDel {α : Type} (m : List (String × α)) (k : String)
    (p : String × α) (h : p ∈ mapDel m k) : p ∈ m := by
  induction m with
  | nil => simp [mapDel] at h
  | cons q rest ih =>
    obtain ⟨k₀, v₀⟩ := q
    by_cases h₀ : k₀ = k
    · simp only [mapDel, if_pos h₀] at h
      exact List.mem_cons_of_mem _ h
    · simp only [mapDel, if_neg h₀, List.mem_cons] at h
      rcases h with h | h
      · exact h ▸ List.mem_cons_self _ _
      · exact List.mem_cons_of_mem _ (ih h)

theorem mapKeys_del_sublist {α : Type} (m : List (String × α)) (k : String) :
    (mapKeys (mapDel m k)).Sublist (mapKeys m) := by
  induction m with
  | nil => simp [mapDel]
  | cons q rest ih =>
    obtain ⟨k₀, v₀⟩ := q
    by_cases h₀ : k₀ = k
    · simp only [mapDel, if_pos h₀]
      exact (List.sublist_cons_self _ _)
    · simp only [mapDel, if_neg h₀, mapKeys, List.map_cons]
      exact List.Sublist.cons₂ _ ih

theorem mapKeys_nodup_del {α : Type} (m : List (String × α)) (k : String)
    (h : (mapKeys m).Nodup) : (mapKeys (mapDel m k)).Nodup :=
  h.sublist (mapKeys_del_sublist m k)

theorem not_mem_keys_del {α : Type} (m : List (String × α)) (k : String)
    (h : (mapKeys m).Nodup) : k ∉ mapKeys (mapDel m k) := by
  induction m with
  | nil => simp [mapDel, mapKeys]
  | cons q rest ih =>
    obtain ⟨k₀, v₀⟩ := q
    simp only [mapKeys, List.map_cons, List.nodup_cons] at h
    by_cases h₀ : k₀ = k
    · subst h₀
      simp only [mapDel, if_pos rfl]
      exact h.1
    · simp only [mapDel, if_neg h₀, mapKeys, List.map_cons, List.mem_cons, not_or]
      exact ⟨fun hk => h₀ hk.symm, ih h.2⟩

theorem mapDel_eq_self_of_not_mem {α : Type} (m : List (String × α)) (k : String)
    (h : k ∉ mapKeys m) : mapDel m k = m := by
  induction m with
  | nil => simp [mapDel]
  | cons q rest ih =>
    obtain ⟨k₀, v₀⟩ := q
    simp only [mapKeys, List.map_cons, List.mem_cons, not_or] at h
    have h₀ : ¬ k₀ = k := fun hh => h.1 hh.symm
    simp only [mapDel, if_neg h₀]
    rw [ih h.2]

theorem mapGet_del_self {α : Type} (m : List (String × α)) (k : String)
    (h : (mapKeys m).Nodup) : mapGet (mapDel m k) k = none :=
  mapGet_eq_none_of_not_mem _ _ (not_mem_keys_del m k h)

theorem mapDel_eq_nil_cases {α : Type} (m : List (String × α)) (k : String)
    (h : mapDel m k = []) : m = [] ∨ ∃ v, m = [(k, v)] := by
  cases m with
  | nil => exact Or.inl rfl
  | cons q rest =>
    obtain ⟨k₀, v₀⟩ := q
    by_cases h₀ : k₀ = k
    · subst h₀
      simp only [mapDel, if_pos rfl] at h
      subst h
      exact Or.inr ⟨v₀, rfl⟩
    · simp only [mapDel, if_neg h₀] at h
      exact absurd h (by simp)

theorem mapKeys_filter_sublist {α : Type} (m : List (String × α)) (P : String × α → Bool) :
    (mapKeys (m.filter P)).Sublist (mapKeys m) :=
  (List.filter_sublist m).map Prod.fst

theorem mapGet_filter_ne_sid (room : RoomMap) (u sid : String)
    (h : (mapKeys room).Nodup) :
    mapGet (room.filter fun q => q.2.socketId ≠ sid) u
      = match mapGet room u with
        | none => none
        | some m => if m.socketId = sid then none else some m := by
  induction room with
  | nil => simp [mapGet]
  | cons q rest ih =>
    obtain ⟨u₀, m₀⟩ := q
    simp only [mapKeys, List.map_cons, List.nodup_cons] at h
    have ihr := ih h.2
    by_cases h₀ : u₀ = u
    · subst h₀
      have hnone : mapGet (rest.filter fun q => q.2.socketId ≠ sid) u₀ = none := by
        apply mapGet_eq_none_of_not_mem
        intro hmem
        exact h.1 ((mapKeys_filter_sublist rest _).subset hmem)
      by_cases hs : m₀.socketId = sid
      · simp only [List.filter_cons, hs]
        simp only [mapGet, if_pos rfl]
        simpa [hs] using hnone
      · simp only [List.filter_cons]
        simp [hs, mapGet]
    · by_cases hs : m₀.socketId = sid
      · simp only [List.filter_cons, hs]
        simp only [mapGet, if_neg h₀]
        simpa [hs] using ihr
      · simp only [List.filter_cons]
        rw [if_pos (by simp [hs])]
        simp only [mapGet, if_neg h₀]
        exact ihr

/-- C1: evaluation of `handleSignal` at the race the claim describes.  A
signal from user `B` arrives while no peer for `B` exists: the handler leaves
the client state unchanged (the signal is dropped; `ClientState` has no
buffer to hold it), and when the peer for `B` is created afterwards by
`handleExistingUsers`, its delivered-signal list is empty — the early offer
was lost, contradicting the claimed buffer-and-replay behaviour. -/
theorem handleSignal_drops_early_signal :
    handleSignal ⟨[], true⟩ "B" ⟨SigKind.offer, "offer-sdp"⟩ = ⟨[], true⟩ ∧
    mapGet ((handleExistingUsers
        (handleSignal ⟨[], true⟩ "B" ⟨SigKind.offer, "offer-sdp"⟩)
        [("B", "Bee")]).1.peers) "B" = some ⟨false, []⟩ := by
  decide

/-- C2: perfect-negotiation glare resolution in `handleOffer`.  When an
incoming offer collides with an in-flight local negotiation (an offer is
being made or the signaling state is not stable), the impolite peer ignores
it — state changes only by raising `ignoreOffer` and clearing `makingOffer`,
no remote description is set and nothing is sent — while the polite peer
rolls back its in-flight local offer, installs the incoming offer as remote
description, and emits exactly one answer; hence of two concurrent offers
exactly the impolite side's is accepted. -/
theorem glare_resolution (pcA pcB : PC) (oA oB : Desc) (ansB : String)
    (hoA : oA.isOffer = true) (hoB : oB.isOffer = true)
    (hcA : pcA.makingOffer = true ∨ pcA.signalingState ≠ SigState.stable)
    (hcB : pcB.makingOffer = true ∨ pcB.signalingState ≠ SigState.stable) :
    handleOffer pcA false oB ansB
      = ({ pcA with ignoreOffer := true, makingOffer := false }, []) ∧
    (handleOffer pcB true oA ansB).1.remoteDesc = some oA ∧
    (handleOffer pcB true oA ansB).1.localDesc = some ⟨false, ansB⟩ ∧
    (handleOffer pcB true oA ansB).2 = [NegMsg.sendAnswer ⟨false, ansB⟩] := by
  rcases hcA with h | h <;> rcases hcB with h' | h' <;>
    simp [handleOffer, hoA, hoB, h, h']

/-- Witness for `glare_resolution`: both peers start stable, both send an
offer through `initiateConnection`, then each receives the other's offer. -/
theorem glare_resolution_witness :
    handleOffer (initiateConnection ⟨SigState.stable, false, false, none, none⟩ "sdpA").1
        false ⟨true, "sdpB"⟩ "ansB"
      = ({ signalingState := SigState.haveLocalOffer, makingOffer := false,
           ignoreOffer := true, localDesc := some ⟨true, "sdpA"⟩,
           remoteDesc := none }, []) ∧
    (handleOffer (initiateConnection ⟨SigState.stable, false, false, none, none⟩ "sdpB").1
        true ⟨true, "sdpA"⟩ "ansB").1.remoteDesc = some ⟨true, "sdpA"⟩ ∧
    (handleOffer (initiateConnection ⟨SigState.stable, false, false, none, none⟩ "sdpB").1
        true ⟨true, "sdpA"⟩ "ansB").1.localDesc = some ⟨false, "ansB"⟩ ∧
    (handleOffer (initiateConnection ⟨SigState.stable, false, false, none, none⟩ "sdpB").1
        true ⟨true, "sdpA"⟩ "ansB").2 = [NegMsg.sendAnswer ⟨false, "ansB"⟩] :=
  glare_resolution
    (initiateConnection ⟨SigState.stable, false, false, none, none⟩ "sdpA").1
    (initiateConnection ⟨SigState.stable, false, false, none, none⟩ "sdpB").1
    ⟨true, "sdpA"⟩ ⟨true, "sdpB"⟩ "ansB" rfl rfl
    (Or.inl (by decide)) (Or.inl (by decide))

/-- C3 counterexample: in a room holding `A` and `B`, calling `leave-room`
for `A` twice emits the `user-left A` broadcast twice — the second call still
finds the room and broadcasts even though `A` is already gone, so leave twice
is observably different from leave once. -/
theorem leave_twice_duplicate_broadcast :
    (leaveRoom (leaveRoom
        (runTrace [Op.join "sA" "r" "A" "a", Op.join "sB" "r" "B" "b"])
        "sA" "r" "A").1 "sA" "r" "A").2
      = [SMsg.toRoom "r" "sA" (Event.userLeft "A")] := by
  decide

/-- C3 amended: `leave-room` is a no-op (not an error) when the room does not
exist, and its effect on the registry state is idempotent — leaving twice
yields the same registry state as leaving once; however each call made while
the room still exists emits a `user-left` broadcast, so a second leave
produces a duplicate broadcast whenever other members keep the room alive. -/
theorem leave_idempotent_amended (st : ServerState) (sid roomId userId : String)
    (hwf : WF st) :
    (mapGet st.rooms roomId = none → leaveRoom st sid roomId userId = (st, [])) ∧
    (leaveRoom (leaveRoom st sid roomId userId).1 sid roomId userId).1
      = (leaveRoom st sid roomId userId).1 ∧
    (leaveRoom (leaveRoom st sid roomId userId).1 sid roomId userId).2
      = (if (mapGet (leaveRoom st sid roomId userId).1.rooms roomId).isSome
         then [SMsg.toRoom roomId sid (Event.userLeft userId)] else []) := by
  refine ⟨fun h => by simp [leaveRoom, h], ?_⟩
  cases hm : mapGet st.rooms roomId with
  | none => simp [leaveRoom, hm]
  | some room =>
    have hnd_room : (mapKeys room).Nodup := hwf.2 _ (mapGet_mem _ _ _ hm)
    by_cases hre : mapDel room userId = []
    · have h2 : mapGet (mapDel st.rooms roomId) roomId = none :=
        mapGet_del_self _ _ hwf.1
      simp [leaveRoom, hm, hre, h2]
    · have h2 : mapGet (mapSet st.rooms roomId (mapDel room userId)) roomId
          = some (mapDel room userId) := mapGet_set_self _ _ _
      have hdel2 : mapDel (mapDel room userId) userId = mapDel room userId :=
        mapDel_eq_self_of_not_mem _ _ (not_mem_keys_del room userId hnd_room)
      simp [leaveRoom, hm, hre, h2, hdel2, mapSet_set]

/-- Witness for `leave_idempotent_amended` at a concrete two-member room. -/
theorem leave_idempotent_amended_witness :
    (leaveRoom (leaveRoom
        (runTrace [Op.join "sA" "r" "A" "a", Op.join "sB" "r" "B" "b"])
        "sA" "r" "A").1 "sA" "r" "A").1
      = (leaveRoom
        (runTrace [Op.join "sA" "r" "A" "a", Op.join "sB" "r" "B" "b"])
        "sA" "r" "A").1 :=
  (leave_idempotent_amended _ "sA" "r" "A" (by decide)).2.1

/-- C7 counterexample: the relay does not forward on target resolution alone.
With `B` registered in room `r` but the sending socket `sX` registered
nowhere, the target lookup succeeds yet the envelope is dropped — the
`signal` handler also requires the sender's socket to resolve to a userId. -/
theorem relay_requires_registered_sender :
    findTargetSocket (runTrace [Op.join "sB" "r" "B" "b"]).rooms "B" = some "sB" ∧
    relaySignal (runTrace [Op.join "sB" "r" "B" "b"]) "sX" "B" ⟨SigKind.offer, "o"⟩
      = (runTrace [Op.join "sB" "r" "B" "b"], []) := by
  decide

/-- C7 amended: for every received signal envelope the relay resolves
`targetUserId` globally across rooms; when the target resolves and the
sending socket also maps to a registered `fromUserId`, exactly one message
`{fromUserId, signal}` with the payload unmodified is forwarded to the
target's connection; when the target does not resolve, or the sender is not
registered, the envelope is dropped silently with no state change. -/
theorem relay_routing_amended (st : ServerState) (sid targetUserId : String)
    (payload : Sig) :
    (findTargetSocket st.rooms targetUserId = none →
      relaySignal st sid targetUserId payload = (st, [])) ∧
    (∀ tsid, findTargetSocket st.rooms targetUserId = some tsid →
      findFromUser st.rooms sid = none →
      relaySignal st sid targetUserId payload = (st, [])) ∧
    (∀ tsid fromUserId, findTargetSocket st.rooms targetUserId = some tsid →
      findFromUser st.rooms sid = some fromUserId →
      relaySignal st sid targetUserId payload
        = (st, [SMsg.direct tsid (Event.signal fromUserId payload)])) := by
  refine ⟨fun h => by simp [relaySignal, h], fun tsid h1 h2 => ?_, fun tsid f h1 h2 => ?_⟩
  · simp [relaySignal, h1, h2]
  · simp [relaySignal, h1, h2]

/-- Witness for `relay_routing_amended`: a registered sender's envelope is
forwarded once, unmodified, to the resolved target socket. -/
theorem relay_routing_amended_witness :
    relaySignal (runTrace [Op.join "sA" "r" "A" "a", Op.join "sB" "r" "B" "b"])
        "sA" "B" ⟨SigKind.offer, "o"⟩
      = (runTrace [Op.join "sA" "r" "A" "a", Op.join "sB" "r" "B" "b"],
         [SMsg.direct "sB" (Event.signal "A" ⟨SigKind.offer, "o"⟩)]) :=
  (relay_routing_amended _ "sA" "B" ⟨SigKind.offer, "o"⟩).2.2 "sB" "A"
    (by decide) (by decide)

theorem roomOf_join_self (st : ServerState) (sid r u n : String) :
    roomOf (joinRoom st sid r u n).1 r = mapSet (roomOf st r) u ⟨sid, u, n⟩ := by
  by_cases hs : (mapGet st.rooms r).isSome
  · obtain ⟨room, hroom⟩ := Option.isSome_iff_exists.mp hs
    simp [joinRoom, roomOf, hs, hroom, mapGet_set_self]
  · have hnone : mapGet st.rooms r = none := Option.not_isSome_iff_eq_none.mp hs
    simp [joinRoom, roomOf, hs, hnone, mapGet_set_self]

theorem rooms_join_get_self (st : ServerState) (sid r u n : String) :
    mapGet (joinRoom st sid r u n).1.rooms r
      = some (mapSet (roomOf st r) u ⟨sid, u, n⟩) := by
  by_cases hs : (mapGet st.rooms r).isSome
  · obtain ⟨room, hroom⟩ := Option.isSome_iff_exists.mp hs
    simp [joinRoom, roomOf, hs, hroom, mapGet_set_self]
  · have hnone : mapGet st.rooms r = none := Option.not_isSome_iff_eq_none.mp hs
    simp [joinRoom, roomOf, hs, hnone, mapGet_set_self]

theorem rooms_join_get_ne (st : ServerState) (sid r u n r' : String) (h : r' ≠ r) :
    mapGet (joinRoom st sid r u n).1.rooms r' = mapGet st.rooms r' := by
  have hne : r ≠ r' := fun hh => h hh.symm
  by_cases hs : (mapGet st.rooms r).isSome
  · simp [joinRoom, hs, mapGet_set_ne _ _ _ _ hne]
  · simp [joinRoom, hs, mapGet_set_ne _ _ _ _ hne]

theorem joinRoom_msgs (st : ServerState) (sid r u n : String) :
    (joinRoom st sid r u n).2
      = if roomOf st r = [] then [SMsg.direct sid (Event.roomJoined true)]
        else [SMsg.toRoom r sid (Event.userJoined u n),
              SMsg.direct sid (Event.existingUsers
                ((roomOf st r).map fun q => (q.2.userId, q.2.userName)))] := by
  by_cases hs : (mapGet st.rooms r).isSome
  · obtain ⟨room, hroom⟩ := Option.isSome_iff_exists.mp hs
    by_cases hnil : room = []
    · subst hnil
      simp [joinRoom, roomOf, hs, hroom]
    · simp [joinRoom, roomOf, hs, hroom, hnil, List.map_map, Function.comp]
  · have hnone : mapGet st.rooms r = none := Option.not_isSome_iff_eq_none.mp hs
    simp [joinRoom, roomOf, hs, hnone, mapGet_set_self]

theorem leaveRoom_get_ne (st : ServerState) (sid r u r' : String) (h : r' ≠ r) :
    mapGet (leaveRoom st sid r u).1.rooms r' = mapGet st.rooms r' := by
  have hne : r ≠ r' := fun hh => h hh.symm
  cases hm : mapGet st.rooms r with
  | none => simp [leaveRoom, hm]
  | some room =>
    by_cases hre : mapDel room u = []
    · simp [leaveRoom, hm, hre, mapGet_del_ne _ _ _ hne]
    · simp [leaveRoom, hm, hre, mapGet_set_ne _ _ _ _ hne]

theorem leaveRoom_msgs (st : ServerState) (sid r u : String) :
    (leaveRoom st sid r u).2
      = if (mapGet st.rooms r).isSome
        then [SMsg.toRoom r sid (Event.userLeft u)] else [] := by
  cases hm : mapGet st.rooms r with
  | none => simp [leaveRoom, hm]
  | some room =>
    by_cases hre : mapDel room u = [] <;> simp [leaveRoom, hm, hre]

/-- C9: frame property of `join-room` and `leave-room`.  An operation on room
`roomId` leaves the member map of every other room unchanged, every message
it emits is addressed either to the acting connection itself or to room
`roomId`, and after a join the acting connection is a member of `roomId`, so
no message is addressed to any connection outside that room. -/
theorem registry_frame (st : ServerState) (sid roomId userId userName r' : String)
    (h : r' ≠ roomId) :
    mapGet (joinRoom st sid roomId userId userName).1.rooms r' = mapGet st.rooms r' ∧
    mapGet (leaveRoom st sid roomId userId).1.rooms r' = mapGet st.rooms r' ∧
    (∀ m ∈ (joinRoom st sid roomId userId userName).2,
       (∃ ev, m = SMsg.direct sid ev) ∨ (∃ ev, m = SMsg.toRoom roomId sid ev)) ∧
    (∀ m ∈ (leaveRoom st sid roomId userId).2,
       ∃ ev, m = SMsg.toRoom roomId sid ev) ∧
    sid ∈ (roomOf (joinRoom st sid roomId userId userName).1 roomId).map
      (fun q => q.2.socketId) := by
  refine ⟨rooms_join_get_ne st sid roomId userId userName r' h,
          leaveRoom_get_ne st sid roomId userId r' h, ?_, ?_, ?_⟩
  · intro m hm
    rw [joinRoom_msgs] at hm
    by_cases hnil : roomOf st roomId = []
    · simp [hnil] at hm
      exact Or.inl ⟨_, hm⟩
    · simp [hnil] at hm
      rcases hm with hm | hm
      · exact Or.inr ⟨_, hm⟩
      · exact Or.inl ⟨_, hm⟩
  · intro m hm
    rw [leaveRoom_msgs] at hm
    by_cases hs : (mapGet st.rooms roomId).isSome
    · simp [hs] at hm
      exact ⟨_, hm⟩
    · simp [hs] at hm
  · rw [roomOf_join_self]
    have := mapGet_mem _ _ _ (mapGet_set_self (roomOf st roomId) userId
      ⟨sid, userId, userName⟩)
    exact List.mem_map.mpr ⟨_, this, rfl⟩

/-- Witness for `registry_frame` at a concrete state with two rooms. -/
theorem registry_frame_witness :
    mapGet (joinRoom (runTrace [Op.join "sC" "q" "C" "c"]) "sA" "r" "A" "a").1.rooms "q"
      = mapGet (runTrace [Op.join "sC" "q" "C" "c"]).rooms "q" ∧
    mapGet (leaveRoom (runTrace [Op.join "sC" "q" "C" "c"]) "sA" "r" "A").1.rooms "q"
      = mapGet (runTrace [Op.join "sC" "q" "C" "c"]).rooms "q" :=
  ⟨(registry_frame (runTrace [Op.join "sC" "q" "C" "c"]) "sA" "r" "A" "a" "q"
      (by decide)).1,
   (registry_frame (runTrace [Op.join "sC" "q" "C" "c"]) "sA" "r" "A" "a" "q"
      (by decide)).2.1⟩

theorem findFrom_inner_spec (sid : String) (room : RoomMap) :
    ∀ (acc : Option String) (f : String),
      room.foldl (fun acc' q =>
        if q.2.socketId = sid then some q.2.userId else acc') acc = some f →
      acc = some f ∨ ∃ q ∈ room, q.2.socketId = sid ∧ q.2.userId = f := by
  induction room with
  | nil => exact fun acc f h => Or.inl h
  | cons q rest ih =>
    intro acc f h
    simp only [List.foldl_cons] at h
    rcases ih _ f h with h' | h'
    · by_cases hs : q.2.socketId = sid
      · rw [if_pos hs] at h'
        exact Or.inr ⟨q, List.mem_cons_self _ _, hs, Option.some.inj h'⟩
      · rw [if_neg hs] at h'
        exact Or.inl h'
    · obtain ⟨q', hq', hp⟩ := h'
      exact Or.inr ⟨q', List.mem_cons_of_mem _ hq', hp⟩

theorem findFrom_outer_spec (sid f : String) (rooms : List (String × RoomMap)) :
    ∀ (acc : Option String),
      rooms.foldl (fun acc p =>
        p.2.foldl (fun acc' q =>
          if q.2.socketId = sid then some q.2.userId else acc') acc) acc = some f →
      acc = some f ∨ ∃ p ∈ rooms, ∃ q ∈ p.2, q.2.socketId = sid ∧ q.2.userId = f := by
  induction rooms with
  | nil => exact fun acc h => Or.inl h
  | cons p rest ih =>
    intro acc h
    simp only [List.foldl_cons] at h
    rcases ih _ h with h' | h'
    · rcases findFrom_inner_spec sid p.2 acc f h' with h'' | h''
      · exact Or.inl h''
      · obtain ⟨q, hq, hp⟩ := h''
        exact Or.inr ⟨p, List.mem_cons_self _ _, q, hq, hp⟩
    · obtain ⟨p', hp', rest'⟩ := h'
      exact Or.inr ⟨p', List.mem_cons_of_mem _ hp', rest'⟩

theorem findFromUser_spec (rooms : List (String × RoomMap)) (sid f : String)
    (h : findFromUser rooms sid = some f) :
    ∃ p ∈ rooms, ∃ q ∈ p.2, q.2.socketId = sid ∧ q.2.userId = f := by
  rcases findFrom_outer_spec sid f rooms none h with h' | h'
  · exact absurd h' (by simp)
  · exact h'

/-- C10: the relay never forwards a signal for a sender that holds no
membership: when the sending socket resolves to no registered `userId` the
envelope is dropped with no state change even if the target resolves, and
every forwarded message carries a `fromUserId` belonging to a current member
whose `socketId` is the sending connection. -/
theorem relay_sender_membership (st : ServerState) (sid targetUserId : String)
    (payload : Sig) :
    (findFromUser st.rooms sid = none →
      relaySignal st sid targetUserId payload = (st, [])) ∧
    (∀ m ∈ (relaySignal st sid targetUserId payload).2,
      ∃ tsid fromUserId,
        m = SMsg.direct tsid (Event.signal fromUserId payload) ∧
        ∃ p ∈ st.rooms, ∃ q ∈ p.2,
          q.2.socketId = sid ∧ q.2.userId = fromUserId) := by
  constructor
  · intro h
    cases ht : findTargetSocket st.rooms targetUserId with
    | none => simp [relaySignal, ht]
    | some tsid => simp [relaySignal, ht, h]
  · intro m hm
    cases ht : findTargetSocket st.rooms targetUserId with
    | none => simp [relaySignal, ht] at hm
    | some tsid =>
      cases hf : findFromUser st.rooms sid with
      | none => simp [relaySignal, ht, hf] at hm
      | some f =>
        simp [relaySignal, ht, hf] at hm
        subst hm
        exact ⟨tsid, f, rfl, findFromUser_spec st.rooms sid f hf⟩

/-- Witness for `relay_sender_membership`: with nobody registered under the
sending socket, the signal is dropped. -/
theorem relay_sender_membership_witness :
    relaySignal (runTrace [Op.join "sB" "r" "B" "b"]) "sX" "B" ⟨SigKind.ice, "c"⟩
      = (runTrace [Op.join "sB" "r" "B" "b"], []) :=
  (relay_sender_membership (runTrace [Op.join "sB" "r" "B" "b"]) "sX" "B"
    ⟨SigKind.ice, "c"⟩).1 (by decide)

theorem respondersFold_frame (us : List (String × String)) :
    ∀ (st : ClientState) (u : String), u ∉ us.map Prod.fst →
      mapGet ((us.foldl
          (fun s p => { s with peers := mapSet s.peers p.1 ⟨false, []⟩ }) st)).peers u
        = mapGet st.peers u := by
  induction us with
  | nil => intro st u _; rfl
  | cons p rest ih =>
    intro st u h
    simp only [List.map_cons, List.mem_cons, not_or] at h
    simp only [List.foldl_cons]
    rw [ih _ u h.2]
    exact mapGet_set_ne _ _ _ _ (fun hh => h.1 hh.symm)

theorem respondersFold_mem (us : List (String × String)) :
    ∀ (st : ClientState) (u : String), u ∈ us.map Prod.fst →
      mapGet ((us.foldl
          (fun s p => { s with peers := mapSet s.peers p.1 ⟨false, []⟩ }) st)).peers u
        = some ⟨false, []⟩ := by
  induction us with
  | nil => intro st u h; simp at h
  | cons p rest ih =>
    intro st u h
    simp only [List.map_cons, List.mem_cons] at h
    simp only [List.foldl_cons]
    by_cases hm : u ∈ rest.map Prod.fst
    · exact ih _ u hm
    · have hu : u = p.1 := by
        rcases h with h | h
        · exact h
        · exact absurd h hm
      rw [respondersFold_frame rest _ u hm, hu]
      exact mapGet_set_self _ _ _

/-- C5: initiator uniqueness of role assignment.  When `B` joins a room in
which `A` is already present, the relay emits exactly one `user-joined`
broadcast to the room and one `existing-users` list to the joiner.  The
incumbent's client, on `user-joined`, creates a peer with `initiator = true`
and emits exactly one offer toward the new user; the joiner's client, on
`existing-users`, creates one `initiator = false` peer per listed member and
emits nothing — so exactly one initial offer is produced per pair, authored
by the already-present side. -/
theorem initiator_uniqueness (st : ServerState) (room : RoomMap)
    (sidB roomId uB nB : String) (stA stB : ClientState)
    (hroom : mapGet st.rooms roomId = some room) (hne : room ≠ [])
    (hsA : stA.hasStream = true) (hsB : stB.hasStream = true) :
    (joinRoom st sidB roomId uB nB).2
      = [SMsg.toRoom roomId sidB (Event.userJoined uB nB),
         SMsg.direct sidB (Event.existingUsers
           (room.map fun w => (w.2.userId, w.2.userName)))] ∧
    (handleUserJoined stA uB).2 = [CMsg.emitSignal uB initialOffer] ∧
    mapGet (handleUserJoined stA uB).1.peers uB = some ⟨true, []⟩ ∧
    (handleExistingUsers stB (room.map fun w => (w.2.userId, w.2.userName))).2 = [] ∧
    ∀ q ∈ room,
      mapGet (handleExistingUsers stB
          (room.map fun w => (w.2.userId, w.2.userName))).1.peers q.2.userId
        = some ⟨false, []⟩ := by
  refine ⟨?_, ?_, ?_, ?_, ?_⟩
  · rw [joinRoom_msgs]
    have hr : roomOf st roomId = room := by simp [roomOf, hroom]
    rw [hr, if_neg hne]
  · simp [handleUserJoined, hsA]
  · simp [handleUserJoined, hsA, mapGet_set_self]
  · simp [handleExistingUsers, hsB]
  · intro q hq
    simp only [handleExistingUsers, hsB, if_true]
    apply respondersFold_mem
    rw [List.map_map]
    exact List.mem_map.mpr ⟨q, hq, rfl⟩

/-- Witness for `initiator_uniqueness`: room `r` holds `A`; `B` joins; the
incumbent emits one offer, the joiner emits nothing. -/
theorem initiator_uniqueness_witness :
    (handleUserJoined ⟨[], true⟩ "B").2 = [CMsg.emitSignal "B" initialOffer] ∧
    (handleExistingUsers ⟨[], true⟩ [("A", "a")]).2 = [] :=
  have h := initiator_uniqueness (runTrace [Op.join "sA" "r" "A" "a"])
    [("A", ⟨"sA", "A", "a"⟩)] "sB" "r" "B" "b" ⟨[], true⟩ ⟨[], true⟩
    (by decide) (by decide) rfl rfl
  ⟨h.2.1, h.2.2.2.1⟩

theorem roomOf_nodup (st : ServerState) (r : String) (hwf : WF st) :
    (mapKeys (roomOf st r)).Nodup := by
  unfold roomOf
  cases hm : mapGet st.rooms r with
  | none => simp [mapKeys]
  | some room => exact hwf.2 _ (mapGet_mem _ _ _ hm)

theorem joinRoom_rooms_eq (st : ServerState) (sid r u n : String) :
    (joinRoom st sid r u n).1.rooms
      = mapSet (if (mapGet st.rooms r).isSome then st.rooms else mapSet st.rooms r [])
          r (mapSet (roomOf st r) u ⟨sid, u, n⟩) := by
  by_cases hs : (mapGet st.rooms r).isSome
  · obtain ⟨room, hroom⟩ := Option.isSome_iff_exists.mp hs
    simp [joinRoom, roomOf, hs, hroom]
  · have hnone : mapGet st.rooms r = none := Option.not_isSome_iff_eq_none.mp hs
    simp [joinRoom, roomOf, hs, hnone, mapGet_set_self]

theorem mapKeys_discMap_sublist (rooms : List (String × RoomMap)) (sid : String) :
    (mapKeys (rooms.filterMap fun p =>
        if p.2.filter (fun q => q.2.socketId ≠ sid) = [] ∧ p.2 ≠ [] then none
        else some (p.1, p.2.filter fun q => q.2.socketId ≠ sid))).Sublist
      (mapKeys rooms) := by
  induction rooms with
  | nil => simp [mapKeys]
  | cons p rest ih =>
    by_cases hc : p.2.filter (fun q => q.2.socketId ≠ sid) = [] ∧ p.2 ≠ []
    · rw [List.filterMap_cons_none (by rw [if_pos hc])]
      exact ih.trans (List.sublist_cons_self _ _)
    · rw [List.filterMap_cons_some (by rw [if_neg hc])]
      exact List.Sublist.cons₂ _ ih

theorem mapGet_disc_rooms (rooms : List (String × RoomMap)) (sid r : String)
    (hnd : (mapKeys rooms).Nodup) :
    mapGet (rooms.filterMap fun p =>
        if p.2.filter (fun q => q.2.socketId ≠ sid) = [] ∧ p.2 ≠ [] then none
        else some (p.1, p.2.filter fun q => q.2.socketId ≠ sid)) r
      = match mapGet rooms r with
        | none => none
        | some room =>
          if room.filter (fun q => q.2.socketId ≠ sid) = [] ∧ room ≠ []
          then none
          else some (room.filter fun q => q.2.socketId ≠ sid) := by
  induction rooms with
  | nil => simp [mapGet]
  | cons p rest ih =>
    obtain ⟨r₀, room₀⟩ := p
    simp only [mapKeys, List.map_cons, List.nodup_cons] at hnd
    have ihr := ih hnd.2
    by_cases hr : r₀ = r
    · subst hr
      rw [show mapGet ((r₀, room₀) :: rest) r₀ = some room₀ from by
        simp [mapGet]]
      by_cases hc : room₀.filter (fun q => q.2.socketId ≠ sid) = [] ∧ room₀ ≠ []
      · rw [List.filterMap_cons_none (by rw [if_pos hc])]
        have hnm : r₀ ∉ mapKeys (rest.filterMap fun p =>
            if p.2.filter (fun q => q.2.socketId ≠ sid) = [] ∧ p.2 ≠ [] then none
            else some (p.1, p.2.filter fun q => q.2.socketId ≠ sid)) :=
          fun hmem => hnd.1 ((mapKeys_discMap_sublist rest sid).subset hmem)
        rw [mapGet_eq_none_of_not_mem _ _ hnm]
        exact (if_pos hc).symm
      · rw [List.filterMap_cons_some (by rw [if_neg hc])]
        rw [show mapGet ((r₀, room₀.filter fun q => q.2.socketId ≠ sid) :: _) r₀
            = some (room₀.filter fun q => q.2.socketId ≠ sid) from by
          simp [mapGet]]
        exact (if_neg hc).symm
    · rw [show mapGet ((r₀, room₀) :: rest) r = mapGet rest r from by
        simp [mapGet, hr]]
      by_cases hc : room₀.filter (fun q => q.2.socketId ≠ sid) = [] ∧ room₀ ≠ []
      · rw [List.filterMap_cons_none (by rw [if_pos hc])]
        exact ihr
      · rw [List.filterMap_cons_some (by rw [if_neg hc])]
        rw [show mapGet ((r₀, room₀.filter fun q => q.2.socketId ≠ sid) ::
            (rest.filterMap fun p =>
              if p.2.filter (fun q => q.2.socketId ≠ sid) = [] ∧ p.2 ≠ [] then none
              else some (p.1, p.2.filter fun q => q.2.socketId ≠ sid))) r
            = mapGet (rest.filterMap fun p =>
              if p.2.filter (fun q => q.2.socketId ≠ sid) = [] ∧ p.2 ≠ [] then none
              else some (p.1, p.2.filter fun q => q.2.socketId ≠ sid)) r from by
          simp [mapGet, hr]]
        exact ihr

/-- Inductive invariant tying the registry to the per-user membership
automaton `aliveStep`: every lookup agrees with the automaton's state, no
stored room is empty, and the state is well-formed. -/
def RegInv (st : ServerState) (f : String → String → Option String) : Prop :=
  (∀ r u, (mapGet (roomOf st r) u).map Member.socketId = f r u) ∧
  (∀ p ∈ st.rooms, p.2 ≠ []) ∧ WF st

theorem roomOf_join_ne (st : ServerState) (sid r₀ u₀ n₀ r : String)
    (h : r ≠ r₀) : roomOf (joinRoom st sid r₀ u₀ n₀).1 r = roomOf st r := by
  unfold roomOf
  rw [rooms_join_get_ne st sid r₀ u₀ n₀ r h]

theorem inv_join (st : ServerState) (f : String → String → Option String)
    (sid r₀ u₀ n₀ : String) (h : RegInv st f) :
    RegInv (joinRoom st sid r₀ u₀ n₀).1
      (fun r u => aliveStep r u (f r u) (Op.join sid r₀ u₀ n₀)) := by
  obtain ⟨hA, hB, hwf⟩ := h
  have hrooms := joinRoom_rooms_eq st sid r₀ u₀ n₀
  have hnd₀ : (mapKeys (if (mapGet st.rooms r₀).isSome then st.rooms
      else mapSet st.rooms r₀ [])).Nodup := by
    by_cases hs : (mapGet st.rooms r₀).isSome
    · simpa [hs] using hwf.1
    · simp only [hs, if_false]
      exact mapKeys_nodup_set _ _ _ hwf.1
  refine ⟨?_, ?_, ?_, ?_⟩
  · intro r u
    simp only [aliveStep]
    by_cases hr : r₀ = r
    · subst hr
      rw [roomOf_join_self]
      by_cases hu : u₀ = u
      · subst hu
        rw [mapGet_set_self]
        simp
      · rw [mapGet_set_ne _ _ _ _ hu, hA r₀ u]
        simp [hu]
    · rw [roomOf_join_ne st sid r₀ u₀ n₀ r (fun hh => hr hh.symm), hA r u]
      simp [hr]
  · intro p hp
    rw [show (joinRoom st sid r₀ u₀ n₀).1.rooms = _ from hrooms] at hp
    rcases mem_mapSet_nodup _ _ _ p hnd₀ hp with hp' | hp'
    · rw [hp']
      exact mapSet_ne_nil _ _ _
    · obtain ⟨hpm, hpne⟩ := hp'
      by_cases hs : (mapGet st.rooms r₀).isSome
      · rw [if_pos hs] at hpm
        exact hB p hpm
      · rw [if_neg hs] at hpm
        rcases mem_mapSet_nodup _ _ _ p hwf.1 hpm with hq | hq
        · exact absurd (by rw [hq] : p.1 = r₀) hpne
        · exact hB p hq.1
  · rw [show (joinRoom st sid r₀ u₀ n₀).1.rooms = _ from hrooms]
    exact mapKeys_nodup_set _ _ _ hnd₀
  · intro p hp
    rw [show (joinRoom st sid r₀ u₀ n₀).1.rooms = _ from hrooms] at hp
    rcases mem_mapSet_nodup _ _ _ p hnd₀ hp with hp' | hp'
    · rw [hp']
      exact mapKeys_nodup_set _ _ _ (roomOf_nodup st r₀ hwf)
    · obtain ⟨hpm, hpne⟩ := hp'
      by_cases hs : (mapGet st.rooms r₀).isSome
      · rw [if_pos hs] at hpm
        exact hwf.2 p hpm
      · rw [if_neg hs] at hpm
        rcases mem_mapSet_nodup _ _ _ p hwf.1 hpm with hq | hq
        · exact absurd (by rw [hq] : p.1 = r₀) hpne
        · exact hwf.2 p hq.1

theorem inv_leave (st : ServerState) (f : String → String → Option String)
    (sid r₀ u₀ : String) (h : RegInv st f) :
    RegInv (leaveRoom st sid r₀ u₀).1
      (fun r u => aliveStep r u (f r u) (Op.leave sid r₀ u₀)) := by
  obtain ⟨hA, hB, hwf⟩ := h
  cases hm : mapGet st.rooms r₀ with
  | none =>
    have hstate : (leaveRoom st sid r₀ u₀).1 = st := by simp [leaveRoom, hm]
    rw [hstate]
    refine ⟨?_, hB, hwf⟩
    intro r u
    simp only [aliveStep]
    by_cases hc : r₀ = r ∧ u₀ = u
    · obtain ⟨hr, hu⟩ := hc
      subst hr; subst hu
      rw [if_pos ⟨rfl, rfl⟩]
      simp [roomOf, hm, mapGet]
    · rw [if_neg hc]
      exact hA r u
  | some room =>
    have hndroom : (mapKeys room).Nodup := hwf.2 _ (mapGet_mem _ _ _ hm)
    have hroomne : room ≠ [] := hB _ (mapGet_mem _ _ _ hm)
    have hro : roomOf st r₀ = room := by simp [roomOf, hm]
    by_cases hre : mapDel room u₀ = []
    · obtain ⟨v, hv⟩ : ∃ v, room = [(u₀, v)] := by
        rcases mapDel_eq_nil_cases room u₀ hre with h' | h'
        · exact absurd h' hroomne
        · exact h'
      have hstate : (leaveRoom st sid r₀ u₀).1 = ⟨mapDel st.rooms r₀⟩ := by
        simp [leaveRoom, hm, hre]
      rw [hstate]
      refine ⟨?_, ?_, ?_, ?_⟩
      · intro r u
        simp only [aliveStep]
        by_cases hr : r₀ = r
        · subst hr
          have hempty : roomOf ⟨mapDel st.rooms r₀⟩ r₀ = [] := by
            unfold roomOf
            rw [mapGet_del_self _ _ hwf.1]
            rfl
          rw [hempty]
          by_cases hu : u₀ = u
          · subst hu
            rw [if_pos ⟨rfl, rfl⟩]
            simp [mapGet]
          · rw [if_neg (fun hc => hu hc.2)]
            rw [← hA r₀ u, hro, hv]
            simp [mapGet, hu]
        · have hframe : roomOf ⟨mapDel st.rooms r₀⟩ r = roomOf st r := by
            unfold roomOf
            rw [mapGet_del_ne _ _ _ (fun hh => hr hh)]
          rw [hframe, hA r u, if_neg (fun hc => hr hc.1)]
      · intro p hp
        exact hB p (mem_of_mem_mapDel _ _ p hp)
      · exact mapKeys_nodup_del _ _ hwf.1
      · intro p hp
        exact hwf.2 p (mem_of_mem_mapDel _ _ p hp)
    · have hstate : (leaveRoom st sid r₀ u₀).1
          = ⟨mapSet st.rooms r₀ (mapDel room u₀)⟩ := by
        simp [leaveRoom, hm, hre]
      rw [hstate]
      refine ⟨?_, ?_, ?_, ?_⟩
      · intro r u
        simp only [aliveStep]
        by_cases hr : r₀ = r
        · subst hr
          have hro2 : roomOf ⟨mapSet st.rooms r₀ (mapDel room u₀)⟩ r₀
              = mapDel room u₀ := by
            unfold roomOf
            rw [mapGet_set_self]
            rfl
          rw [hro2]
          by_cases hu : u₀ = u
          · subst hu
            rw [if_pos ⟨rfl, rfl⟩]
            rw [mapGet_eq_none_of_not_mem _ _ (not_mem_keys_del room u₀ hndroom)]
            rfl
          · rw [if_neg (fun hc => hu hc.2)]
            rw [mapGet_del_ne _ _ _ hu, ← hA r₀ u, hro]
        · have hframe : roomOf ⟨mapSet st.rooms r₀ (mapDel room u₀)⟩ r
              = roomOf st r := by
            unfold roomOf
            rw [mapGet_set_ne _ _ _ _ (fun hh => hr hh)]
          rw [hframe, hA r u, if_neg (fun hc => hr hc.1)]
      · intro p hp
        rcases mem_mapSet_nodup _ _ _ p hwf.1 hp with hp' | hp'
        · rw [hp']
          exact hre
        · exact hB p hp'.1
      · exact mapKeys_nodup_set _ _ _ hwf.1
      · intro p hp
        rcases mem_mapSet_nodup _ _ _ p hwf.1 hp with hp' | hp'
        · rw [hp']
          exact mapKeys_nodup_del _ _ hndroom
        · exact hwf.2 p hp'.1

theorem disc_rooms_eq (st : ServerState) (sid : String) :
    (disconnectSocket st sid).1.rooms
      = st.rooms.filterMap fun p =>
          if p.2.filter (fun q => q.2.socketId ≠ sid) = [] ∧ p.2 ≠ [] then none
          else some (p.1, p.2.filter fun q => q.2.socketId ≠ sid) := rfl

theorem roomOf_disc (st : ServerState) (sid r : String)
    (hnd : (mapKeys st.rooms).Nodup) :
    roomOf (disconnectSocket st sid).1 r
      = (roomOf st r).filter fun q => q.2.socketId ≠ sid := by
  unfold roomOf
  rw [disc_rooms_eq, mapGet_disc_rooms st.rooms sid r hnd]
  cases hm : mapGet st.rooms r with
  | none => rfl
  | some room =>
    by_cases hcc : room.filter (fun q => q.2.socketId ≠ sid) = [] ∧ room ≠ []
    · simp only [if_pos hcc]
      exact hcc.1.symm
    · simp only [if_neg hcc]
      rfl

theorem inv_disc (st : ServerState) (f : String → String → Option String)
    (sid : String) (h : RegInv st f) :
    RegInv (disconnectSocket st sid).1
      (fun r u => aliveStep r u (f r u) (Op.disc sid)) := by
  obtain ⟨hA, hB, hwf⟩ := h
  refine ⟨?_, ?_, ?_, ?_⟩
  · intro r u
    simp only [aliveStep]
    rw [roomOf_disc st sid r hwf.1]
    rw [mapGet_filter_ne_sid _ u sid (roomOf_nodup st r hwf)]
    rw [← hA r u]
    cases hg : mapGet (roomOf st r) u with
    | none => simp
    | some m =>
      by_cases hs : m.socketId = sid
      · simp [hs]
      · simp [hs]
  · intro p hp
    rw [disc_rooms_eq] at hp
    obtain ⟨a, ha, hFa⟩ := List.mem_filterMap.mp hp
    by_cases hcc : a.2.filter (fun q => q.2.socketId ≠ sid) = [] ∧ a.2 ≠ []
    · rw [if_pos hcc] at hFa
      exact absurd hFa (by simp)
    · rw [if_neg hcc] at hFa
      have heq := Option.some.inj hFa
      subst heq
      intro hnil
      exact hcc ⟨hnil, hB a ha⟩
  · rw [disc_rooms_eq]
    exact hwf.1.sublist (mapKeys_discMap_sublist st.rooms sid)
  · intro p hp
    rw [disc_rooms_eq] at hp
    obtain ⟨a, ha, hFa⟩ := List.mem_filterMap.mp hp
    by_cases hcc : a.2.filter (fun q => q.2.socketId ≠ sid) = [] ∧ a.2 ≠ []
    · rw [if_pos hcc] at hFa
      exact absurd hFa (by simp)
    · rw [if_neg hcc] at hFa
      have heq := Option.some.inj hFa
      subst heq
      exact (hwf.2 a ha).sublist (mapKeys_filter_sublist a.2 _)

theorem inv_step (st : ServerState) (f : String → String → Option String)
    (op : Op) (h : RegInv st f) :
    RegInv (stepOp st op) (fun r u => aliveStep r u (f r u) op) := by
  cases op with
  | join sid r₀ u₀ n₀ => exact inv_join st f sid r₀ u₀ n₀ h
  | leave sid r₀ u₀ => exact inv_leave st f sid r₀ u₀ h
  | disc sid => exact inv_disc st f sid h

theorem inv_run (t : List Op) :
    ∀ (st : ServerState) (f : String → String → Option String), RegInv st f →
      RegInv (t.foldl stepOp st) (fun r u => t.foldl (aliveStep r u) (f r u)) := by
  induction t with
  | nil => exact fun st f h => h
  | cons op rest ih =>
    intro st f h
    simpa [List.foldl_cons] using ih _ _ (inv_step st f op h)

theorem inv_trace (t : List Op) :
    RegInv (runTrace t) (fun r u => alive t r u) := by
  have h0 : RegInv ⟨[]⟩ (fun _ _ => none) := by
    refine ⟨fun r u => rfl, by simp, by simp [WF, mapKeys]⟩
  exact inv_run t ⟨[]⟩ (fun _ _ => none) h0

/-- C4: room-lifecycle invariant of the registry.  After any sequence of
join, leave and disconnect operations, the lookup of a user in a room agrees
exactly with the trace-level membership automaton (`alive`): the user is a
member, with the socket of their latest join, iff they joined and have not
since left that room or had that socket disconnect.  No stored room is ever
empty (a room is deleted the instant its member count reaches zero), and a
room entry exists iff some user is alive in it — so it is created by the
first join referencing it and destroyed with its last member. -/
theorem room_membership_consistency (t : List Op) (r u : String) :
    (mapGet (roomOf (runTrace t) r) u).map Member.socketId = alive t r u ∧
    (∀ p ∈ (runTrace t).rooms, p.2 ≠ []) ∧
    ((mapGet (runTrace t).rooms r).isSome ↔ ∃ v, alive t r v ≠ none) := by
  have h := inv_trace t
  refine ⟨h.1 r u, h.2.1, ?_, ?_⟩
  · intro hs
    obtain ⟨room, hm⟩ := Option.isSome_iff_exists.mp hs
    have hne := h.2.1 _ (mapGet_mem _ _ _ hm)
    cases room with
    | nil => exact absurd rfl hne
    | cons q rest =>
      obtain ⟨k, m⟩ := q
      refine ⟨k, ?_⟩
      have hk : (mapGet (roomOf (runTrace t) r) k).map Member.socketId
          = alive t r k := h.1 r k
      rw [← hk]
      have hro : roomOf (runTrace t) r = (k, m) :: rest := by simp [roomOf, hm]
      rw [hro]
      simp [mapGet]
  · rintro ⟨v, hv⟩
    by_contra hns
    have hnone : mapGet (runTrace t).rooms r = none :=
      Option.not_isSome_iff_eq_none.mp hns
    apply hv
    have hk : (mapGet (roomOf (runTrace t) r) v).map Member.socketId
        = alive t r v := h.1 r v
    rw [← hk]
    simp [roomOf, hnone, mapGet]

/-- C6 counterexample: the registry does not keep `connectionId` unique.
After the same socket `S` joins room `r` twice under two different user ids,
two distinct Members simultaneously carry `socketId = S` — `join-room` never
removes the socket's other memberships. -/
theorem connectionId_shared_by_two_members :
    mapGet (roomOf (runTrace
        [Op.join "S" "r" "A" "a", Op.join "S" "r" "B" "b"]) "r") "A"
      = some ⟨"S", "A", "a"⟩ ∧
    mapGet (roomOf (runTrace
        [Op.join "S" "r" "A" "a", Op.join "S" "r" "B" "b"]) "r") "B"
      = some ⟨"S", "B", "b"⟩ := by
  decide

/-- C6 amended: within any room reached by a trace, each `userId` maps to at
most one Member (room keys are duplicate-free), and a re-join with an
already-present `userId` replaces the prior Member in place rather than
erroring or duplicating (the key set is unchanged on a re-join and grows by
exactly the new key otherwise).  The original claim's second half — that a
`connectionId` belongs to at most one Member across all rooms — is not
enforced by the code: `join-room` never clears a socket's other memberships. -/
theorem userId_unique_per_room (t : List Op)
    (sid roomId userId userName : String) :
    (mapKeys (roomOf (runTrace t) roomId)).Nodup ∧
    mapGet (roomOf (runTrace (t ++ [Op.join sid roomId userId userName])) roomId)
        userId = some ⟨sid, userId, userName⟩ ∧
    mapKeys (roomOf (runTrace (t ++ [Op.join sid roomId userId userName])) roomId)
      = (if userId ∈ mapKeys (roomOf (runTrace t) roomId)
         then mapKeys (roomOf (runTrace t) roomId)
         else mapKeys (roomOf (runTrace t) roomId) ++ [userId]) := by
  have h := inv_trace t
  have hrun : runTrace (t ++ [Op.join sid roomId userId userName])
      = (joinRoom (runTrace t) sid roomId userId userName).1 := by
    unfold runTrace
    rw [List.foldl_append]
    rfl
  refine ⟨roomOf_nodup _ _ h.2.2, ?_, ?_⟩
  · rw [hrun, roomOf_join_self, mapGet_set_self]
  · rw [hrun, roomOf_join_self, mapKeys_set]

theorem mapGet_append_not_mem {α : Type} (l₁ l₂ : List (String × α)) (k : String)
    (h : k ∉ mapKeys l₁) : mapGet (l₁ ++ l₂) k = mapGet l₂ k := by
  induction l₁ with
  | nil => simp
  | cons p rest ih =>
    obtain ⟨k₀, v₀⟩ := p
    simp only [mapKeys, List.map_cons, List.mem_cons, not_or] at h
    have h₀ : ¬ k₀ = k := fun hh => h.1 hh.symm
    simp only [List.cons_append, mapGet, if_neg h₀]
    exact ih h.2

theorem mapDel_append_not_mem {α : Type} (l₁ l₂ : List (String × α)) (k : String)
    (h : k ∉ mapKeys l₁) : mapDel (l₁ ++ l₂) k = l₁ ++ mapDel l₂ k := by
  induction l₁ with
  | nil => simp
  | cons p rest ih =>
    obtain ⟨k₀, v₀⟩ := p
    simp only [mapKeys, List.map_cons, List.mem_cons, not_or] at h
    have h₀ : ¬ k₀ = k := fun hh => h.1 hh.symm
    simp only [List.cons_append, mapDel, if_neg h₀]
    rw [show rest.append l₂ = rest ++ l₂ from rfl, ih h.2]

theorem mapSet_append_not_mem {α : Type} (l₁ l₂ : List (String × α)) (k : String)
    (v : α) (h : k ∉ mapKeys l₁) : mapSet (l₁ ++ l₂) k v = l₁ ++ mapSet l₂ k v := by
  induction l₁ with
  | nil => simp
  | cons p rest ih =>
    obtain ⟨k₀, v₀⟩ := p
    simp only [mapKeys, List.map_cons, List.mem_cons, not_or] at h
    have h₀ : ¬ k₀ = k := fun hh => h.1 hh.symm
    simp only [List.cons_append, mapSet, if_neg h₀]
    rw [show rest.append l₂ = rest ++ l₂ from rfl, ih h.2]

/-- Memberships a dropped connection holds, read off the registry exactly as
the `disconnect` handler enumerates them: rooms in insertion order, matching
members in insertion order.  This list is the spec's
`removeByConnection(connectionId)` report. -/
def removeByConnection (rooms : List (String × RoomMap)) (sid : String) :
    List (String × String) :=
  rooms.flatMap fun p =>
    (p.2.filter fun q => q.2.socketId = sid).map fun q => (p.1, q.1)

/-- Invoke the `leave-room` handler once per listed (roomId, userId)
membership, sequentially, collecting the final state and all broadcasts. -/
def leaveSeq (sid : String) : ServerState → List (String × String) →
    ServerState × List SMsg
  | st, [] => (st, [])
  | st, p :: ps =>
    let r := leaveRoom st sid p.1 p.2
    let rest := leaveSeq sid r.1 ps
    (rest.1, r.2 ++ rest.2)

theorem leaveSeq_append (sid : String) (ms₁ ms₂ : List (String × String)) :
    ∀ st : ServerState,
      leaveSeq sid st (ms₁ ++ ms₂)
        = ((leaveSeq sid (leaveSeq sid st ms₁).1 ms₂).1,
           (leaveSeq sid st ms₁).2 ++ (leaveSeq sid (leaveSeq sid st ms₁).1 ms₂).2) := by
  induction ms₁ with
  | nil => intro st; simp [leaveSeq]
  | cons p ps ih =>
    intro st
    simp only [List.cons_append, leaveSeq]
    rw [show ps.append ms₂ = ps ++ ms₂ from rfl, ih]
    simp [List.append_assoc]

theorem leaveSeq_room (sid r : String) (tl : RoomMap) :
    ∀ (pre : RoomMap) (rooms : List (String × RoomMap)),
      (mapKeys rooms).Nodup →
      (mapKeys (pre ++ tl)).Nodup →
      (∀ q ∈ pre, q.2.socketId ≠ sid) →
      mapGet rooms r = some (pre ++ tl) →
      leaveSeq sid ⟨rooms⟩
          ((tl.filter fun q => q.2.socketId = sid).map fun q => (r, q.1))
        = (⟨if pre ++ tl.filter (fun q => q.2.socketId ≠ sid) = []
              ∧ pre ++ tl ≠ []
            then mapDel rooms r
            else mapSet rooms r (pre ++ tl.filter fun q => q.2.socketId ≠ sid)⟩,
           (tl.filter fun q => q.2.socketId = sid).map
             fun q => SMsg.toRoom r sid (Event.userLeft q.1)) := by
  induction tl with
  | nil =>
    intro pre rooms hnd hndpre hpre hget
    rw [List.append_nil] at hget
    simp only [List.filter_nil, List.map_nil, List.append_nil, leaveSeq]
    rw [if_neg (fun hc => hc.2 hc.1)]
    rw [mapSet_self rooms r pre hget]
  | cons q tl ih =>
    intro pre rooms hnd hndpre hpre hget
    obtain ⟨u, m⟩ := q
    have hndpre' : (mapKeys (pre ++ tl)).Nodup := by
      have hsub : (mapKeys (pre ++ tl)).Sublist (mapKeys (pre ++ (u, m) :: tl)) := by
        unfold mapKeys
        rw [List.map_append, List.map_append, List.map_cons]
        exact (List.Sublist.refl _).append (List.sublist_cons_self _ _)
      exact hndpre.sublist hsub
    have hkeys : (mapKeys pre ++ u :: mapKeys tl).Nodup := by
      simpa [mapKeys, List.map_append] using hndpre
    have hu_pre : u ∉ mapKeys pre := by
      intro hmem
      rcases List.nodup_append.mp hkeys with ⟨_, _, hdisj⟩
      exact hdisj hmem (List.mem_cons_self u _)
    by_cases hs : m.socketId = sid
    · have hfeq : ((u, m) :: tl).filter (fun q => q.2.socketId = sid)
          = (u, m) :: tl.filter fun q => q.2.socketId = sid := by
        simp [List.filter_cons, hs]
      have hfneq : ((u, m) :: tl).filter (fun q => q.2.socketId ≠ sid)
          = tl.filter fun q => q.2.socketId ≠ sid := by
        simp [List.filter_cons, hs]
      rw [hfeq, hfneq]
      simp only [List.map_cons, leaveSeq]
      have hdel : mapDel (pre ++ (u, m) :: tl) u = pre ++ tl := by
        rw [mapDel_append_not_mem _ _ _ hu_pre]
        simp [mapDel]
      have hlr : leaveRoom ⟨rooms⟩ sid r u
          = (⟨if pre ++ tl = [] then mapDel rooms r
              else mapSet rooms r (pre ++ tl)⟩,
             [SMsg.toRoom r sid (Event.userLeft u)]) := by
        simp [leaveRoom, hget, hdel]
      rw [hlr]
      by_cases hnil : pre ++ tl = []
      · obtain ⟨hpre0, htl0⟩ := List.append_eq_nil.mp hnil
        subst htl0
        subst hpre0
        simp only [List.filter_nil, List.map_nil, leaveSeq, if_pos hnil]
        rw [if_pos ⟨by simp, by simp⟩]
        simp
      · rw [if_neg hnil]
        have ihres := ih pre (mapSet rooms r (pre ++ tl))
          (mapKeys_nodup_set _ _ _ hnd) hndpre' hpre (mapGet_set_self _ _ _)
        rw [ihres]
        by_cases hdead : pre ++ tl.filter (fun q => q.2.socketId ≠ sid) = []
        · rw [if_pos ⟨hdead, hnil⟩, if_pos ⟨hdead, by simp⟩, mapDel_set]
          simp
        · rw [if_neg (fun hc => hdead hc.1), if_neg (fun hc => hdead hc.1),
            mapSet_set]
          simp
    · have hfeq : ((u, m) :: tl).filter (fun q => q.2.socketId = sid)
          = tl.filter fun q => q.2.socketId = sid := by
        simp [List.filter_cons, hs]
      have hfneq : ((u, m) :: tl).filter (fun q => q.2.socketId ≠ sid)
          = (u, m) :: tl.filter fun q => q.2.socketId ≠ sid := by
        simp [List.filter_cons, hs]
      rw [hfeq, hfneq]
      have hassoc : pre ++ (u, m) :: tl = (pre ++ [(u, m)]) ++ tl := by simp
      have hndpre₂ : (mapKeys ((pre ++ [(u, m)]) ++ tl)).Nodup := by
        rw [← hassoc]
        exact hndpre
      have hpre₂ : ∀ q ∈ pre ++ [(u, m)], q.2.socketId ≠ sid := by
        intro q hq
        rcases List.mem_append.mp hq with h' | h'
        · exact hpre q h'
        · have : q = (u, m) := by simpa using h'
          rw [this]
          exact hs
      have hget₂ : mapGet rooms r = some ((pre ++ [(u, m)]) ++ tl) := by
        rw [← hassoc]
        exact hget
      have ihres := ih (pre ++ [(u, m)]) rooms hnd hndpre₂ hpre₂ hget₂
      rw [ihres]
      rw [if_neg (fun hc => by simpa using hc.1)]
      rw [if_neg (fun hc => by simpa using hc.1)]
      rw [show (pre ++ [(u, m)]) ++ tl.filter (fun q => q.2.socketId ≠ sid)
          = pre ++ (u, m) :: tl.filter (fun q => q.2.socketId ≠ sid) from by simp]

theorem leaveSeq_disc (sid : String) (rest : List (String × RoomMap)) :
    ∀ (pfx : List (String × RoomMap)),
      (mapKeys (pfx ++ rest)).Nodup →
      (∀ p ∈ pfx, ∀ q ∈ p.2, q.2.socketId ≠ sid) →
      (∀ p ∈ pfx ++ rest, (mapKeys p.2).Nodup) →
      leaveSeq sid ⟨pfx ++ rest⟩ (removeByConnection rest sid)
        = (⟨pfx ++ rest.filterMap fun p =>
              if p.2.filter (fun q => q.2.socketId ≠ sid) = [] ∧ p.2 ≠ [] then none
              else some (p.1, p.2.filter fun q => q.2.socketId ≠ sid)⟩,
           rest.flatMap fun p =>
             (p.2.filter fun q => q.2.socketId = sid).map
               fun q => SMsg.toRoom p.1 sid (Event.userLeft q.1)) := by
  induction rest with
  | nil =>
    intro pfx hnd hpfx hinner
    simp [removeByConnection, leaveSeq]
  | cons p rest ih =>
    intro pfx hnd hpfx hinner
    obtain ⟨r₁, room₁⟩ := p
    have hrbc : removeByConnection ((r₁, room₁) :: rest) sid
        = ((room₁.filter fun q => q.2.socketId = sid).map fun q => (r₁, q.1))
          ++ removeByConnection rest sid := by
      simp [removeByConnection]
    rw [hrbc, leaveSeq_append]
    have hkeys : (mapKeys pfx ++ r₁ :: mapKeys rest).Nodup := by
      simpa [mapKeys, List.map_append] using hnd
    have hr₁_pfx : r₁ ∉ mapKeys pfx := by
      intro hmem
      rcases List.nodup_append.mp hkeys with ⟨_, _, hdisj⟩
      exact hdisj hmem (List.mem_cons_self _ _)
    have hget₁ : mapGet (pfx ++ (r₁, room₁) :: rest) r₁ = some room₁ := by
      rw [mapGet_append_not_mem _ _ _ hr₁_pfx]
      simp [mapGet]
    have hnd_room₁ : (mapKeys room₁).Nodup := hinner (r₁, room₁) (by simp)
    have hgrp := leaveSeq_room sid r₁ room₁ [] (pfx ++ (r₁, room₁) :: rest)
      hnd (by simpa using hnd_room₁) (by simp) (by simpa using hget₁)
    simp only [List.nil_append] at hgrp
    rw [hgrp]
    by_cases hcc : room₁.filter (fun q => q.2.socketId ≠ sid) = [] ∧ room₁ ≠ []
    · rw [if_pos hcc]
      have hdel : mapDel (pfx ++ (r₁, room₁) :: rest) r₁ = pfx ++ rest := by
        rw [mapDel_append_not_mem _ _ _ hr₁_pfx]
        simp [mapDel]
      rw [hdel]
      have hnd' : (mapKeys (pfx ++ rest)).Nodup := by
        have hsub : (mapKeys pfx ++ mapKeys rest).Sublist
            (mapKeys pfx ++ r₁ :: mapKeys rest) :=
          (List.Sublist.refl _).append (List.sublist_cons_self _ _)
        have := hkeys.sublist hsub
        simpa [mapKeys, List.map_append] using this
      have hinner' : ∀ p ∈ pfx ++ rest, (mapKeys p.2).Nodup := by
        intro p hp
        rcases List.mem_append.mp hp with h' | h'
        · exact hinner p (List.mem_append_left _ h')
        · exact hinner p (List.mem_append_right _ (List.mem_cons_of_mem _ h'))
      rw [ih pfx hnd' hpfx hinner']
      rw [List.filterMap_cons_none (by rw [if_pos hcc])]
      rw [show ((r₁, room₁) :: rest).flatMap (fun p =>
            (p.2.filter fun q => q.2.socketId = sid).map
              fun q => SMsg.toRoom p.1 sid (Event.userLeft q.1))
          = ((room₁.filter fun q => q.2.socketId = sid).map
              fun q => SMsg.toRoom r₁ sid (Event.userLeft q.1))
            ++ rest.flatMap (fun p =>
              (p.2.filter fun q => q.2.socketId = sid).map
                fun q => SMsg.toRoom p.1 sid (Event.userLeft q.1)) from by
        simp]
    · rw [if_neg hcc]
      have hset : mapSet (pfx ++ (r₁, room₁) :: rest) r₁
            (room₁.filter fun q => q.2.socketId ≠ sid)
          = pfx ++ (r₁, room₁.filter fun q => q.2.socketId ≠ sid) :: rest := by
        rw [mapSet_append_not_mem _ _ _ _ hr₁_pfx]
        simp [mapSet]
      rw [hset]
      rw [show pfx ++ (r₁, room₁.filter fun q => q.2.socketId ≠ sid) :: rest
          = (pfx ++ [(r₁, room₁.filter fun q => q.2.socketId ≠ sid)]) ++ rest from by
        simp]
      have hnd₂ : (mapKeys ((pfx ++ [(r₁, room₁.filter fun q => q.2.socketId ≠ sid)])
          ++ rest)).Nodup := by
        simpa [mapKeys, List.map_append] using hkeys
      have hpfx₂ : ∀ p ∈ pfx ++ [(r₁, room₁.filter fun q => q.2.socketId ≠ sid)],
          ∀ q ∈ p.2, q.2.socketId ≠ sid := by
        intro p hp q hq
        rcases List.mem_append.mp hp with h' | h'
        · exact hpfx p h' q hq
        · have hpeq : p = (r₁, room₁.filter fun q => q.2.socketId ≠ sid) := by
            simpa using h'
          rw [hpeq] at hq
          have := List.of_mem_filter hq
          simpa using this
      have hinner₂ : ∀ p ∈ (pfx ++ [(r₁, room₁.filter fun q => q.2.socketId ≠ sid)])
          ++ rest, (mapKeys p.2).Nodup := by
        intro p hp
        rcases List.mem_append.mp hp with h' | h'
        · rcases List.mem_append.mp h' with h'' | h''
          · exact hinner p (List.mem_append_left _ h'')
          · have hpeq : p = (r₁, room₁.filter fun q => q.2.socketId ≠ sid) := by
              simpa using h''
            rw [hpeq]
            exact hnd_room₁.sublist (mapKeys_filter_sublist room₁ _)
        · exact hinner p (List.mem_append_right _ (List.mem_cons_of_mem _ h'))
      rw [ih (pfx ++ [(r₁, room₁.filter fun q => q.2.socketId ≠ sid)]) hnd₂ hpfx₂
        hinner₂]
      rw [List.filterMap_cons_some (by rw [if_neg hcc])]
      rw [show ((r₁, room₁) :: rest).flatMap (fun p =>
            (p.2.filter fun q => q.2.socketId = sid).map
              fun q => SMsg.toRoom p.1 sid (Event.userLeft q.1))
          = ((room₁.filter fun q => q.2.socketId = sid).map
              fun q => SMsg.toRoom r₁ sid (Event.userLeft q.1))
            ++ rest.flatMap (fun p =>
              (p.2.filter fun q => q.2.socketId = sid).map
                fun q => SMsg.toRoom p.1 sid (Event.userLeft q.1)) from by
        simp]
      rw [show (pfx ++ [(r₁, room₁.filter fun q => q.2.socketId ≠ sid)])
            ++ rest.filterMap (fun p =>
              if p.2.filter (fun q => q.2.socketId ≠ sid) = [] ∧ p.2 ≠ [] then none
              else some (p.1, p.2.filter fun q => q.2.socketId ≠ sid))
          = pfx ++ (r₁, room₁.filter fun q => q.2.socketId ≠ sid)
            :: rest.filterMap (fun p =>
              if p.2.filter (fun q => q.2.socketId ≠ sid) = [] ∧ p.2 ≠ [] then none
              else some (p.1, p.2.filter fun q => q.2.socketId ≠ sid)) from by
        simp]

/-- C8: disconnect cleanup refines explicit leave.  For every well-formed
registry state, the `disconnect` handler produces exactly the registry state
and the sequence of `user-left` broadcasts obtained by invoking the
`leave-room` handler once for each (roomId, userId) membership the dropped
connection holds, across all rooms in order — including deleting every room
whose member count reaches zero. -/
theorem disconnect_refines_leave (st : ServerState) (sid : String) (hwf : WF st) :
    disconnectSocket st sid = leaveSeq sid st (removeByConnection st.rooms sid) := by
  have h := leaveSeq_disc sid st.rooms []
    (by simpa using hwf.1) (by simp) (by simpa using hwf.2)
  simp only [List.nil_append] at h
  rw [show (⟨st.rooms⟩ : ServerState) = st from rfl] at h
  rw [h]
  rfl

/-- Witness for `disconnect_refines_leave`: socket `sA` holds memberships in
two rooms, one of which it is the sole member of (so that room is deleted). -/
theorem disconnect_refines_leave_witness :
    disconnectSocket (runTrace [Op.join "sA" "r" "A" "a",
        Op.join "sB" "r" "B" "b", Op.join "sA" "q" "C" "c"]) "sA"
      = leaveSeq "sA"
          (runTrace [Op.join "sA" "r" "A" "a",
            Op.join "sB" "r" "B" "b", Op.join "sA" "q" "C" "c"])
          (removeByConnection
            (runTrace [Op.join "sA" "r" "A" "a",
              Op.join "sB" "r" "B" "b", Op.join "sA" "q" "C" "c"]).rooms "sA") :=
  disconnect_refines_leave _ "sA" (by decide)
